import Mathlib

/-!
Verification of the Isochrone Meeting Point engine (`src/main.py`).

Geometry is embedded with a rasterized exact semantics: a planar areal
region is the finite set of unit grid cells it covers (`Region`), and a
shapely geometry value is a closed tagged variant (`Geom`) recording the
runtime type the Python code dispatches on (`Polygon`, `MultiPolygon`,
`GeometryCollection`, or a non-areal geometry such as a line or point).
Set operations (`intersection`, `union`) act on the underlying cell sets,
which gives exact set semantics; floating-point rounding artifacts of the
geometry library are treated as immaterial, as the spec itself does.
External collaborators (Mapbox geocoding, isochrone fetch, directions) are
parameters of the resolution pipeline, not modelled.
-/

/-- A unit grid cell, identified by its lower-left corner. -/
abbrev Cell := ℤ × ℤ

/-- An areal region: the finite set of unit cells it covers. -/
abbrev Region := Finset Cell

/-- A non-collection shapely geometry: `Polygon`, `MultiPolygon` (an
explicit list of polygonal components), or non-areal geometry (lines /
points).  A non-areal geometry carries its support only to decide shapely
`is_empty`; its area is zero. -/
inductive PGeom where
  | polygon (cells : Region)
  | multipolygon (comps : List Region)
  | lineal (support : Region)
deriving DecidableEq

/-- shapely `geometry.is_empty` for a non-collection geometry. -/
def PGeom.is_empty : PGeom → Bool
  | .polygon c => decide (c = ∅)
  | .multipolygon comps => comps.all fun c => decide (c = ∅)
  | .lineal s => decide (s = ∅)

/-- Areal cells of a non-collection geometry. -/
def PGeom.arealCells : PGeom → Region
  | .polygon c => c
  | .multipolygon comps => comps.foldl (· ∪ ·) ∅
  | .lineal _ => ∅

/-- Whether a collection member is `Polygon` or `MultiPolygon`
(Python's `isinstance(geom, (Polygon, MultiPolygon))` at main.py:204). -/
def PGeom.isPolygonal : PGeom → Bool
  | .polygon _ => true
  | .multipolygon _ => true
  | .lineal _ => false

/-- Embedding of the shapely geometry values `main.py` dispatches on:
`Polygon`, `MultiPolygon`, `GeometryCollection`, and non-areal geometry
(lines / points), which the code's `_polygonal_region` falls through to
`Polygon()` on.  Collection members are non-collection geometries:
`_polygonal_region` filters members one level deep and never recurses
into a nested collection, so nesting is irrelevant to the code under
verification. -/
inductive Geom where
  | polygon (cells : Region)
  | multipolygon (comps : List Region)
  | lineal (support : Region)
  | collection (gs : List PGeom)
deriving DecidableEq

/-- A collection member viewed as a geometry value. -/
def PGeom.toGeom : PGeom → Geom
  | .polygon c => .polygon c
  | .multipolygon comps => .multipolygon comps
  | .lineal s => .lineal s

namespace Geom

/-- shapely `geometry.is_empty`: no points at all. -/
def is_empty : Geom → Bool
  | polygon c => decide (c = ∅)
  | multipolygon comps => comps.all fun c => decide (c = ∅)
  | lineal s => decide (s = ∅)
  | collection gs => gs.all PGeom.is_empty

/-- The areal cells covered by a geometry (lines and points cover none). -/
def arealCells : Geom → Region
  | polygon c => c
  | multipolygon comps => comps.foldl (· ∪ ·) ∅
  | lineal _ => ∅
  | collection gs => gs.foldl (fun acc g => acc ∪ g.arealCells) ∅

/-- shapely `.area`: number of unit cells covered (non-areal parts
contribute nothing). -/
def area (g : Geom) : ℕ := g.arealCells.card

/-- shapely `.centroid` of an areal geometry: the mean of the covered unit
cells' centers; `none` when the geometry covers no area (shapely returns
an empty point there). -/
def centroid (g : Geom) : Option (ℚ × ℚ) :=
  let r := g.arealCells
  if r.card = 0 then none
  else some ((r.sum fun c => (c.1 : ℚ) + 1/2) / r.card,
             (r.sum fun c => (c.2 : ℚ) + 1/2) / r.card)

/-- Whether the runtime type is `Polygon` or `MultiPolygon`
(Python's `isinstance(geom, (Polygon, MultiPolygon))`). -/
def isPolygonal : Geom → Bool
  | polygon _ => true
  | multipolygon _ => true
  | _ => false

/-- shapely `a.union(b)` as used on polygonal members in
`_polygonal_region`, modelled by the union of the covered cell sets.
The rasterized semantics represents the union by its point set and does
not re-derive a component decomposition. -/
def union (a b : Geom) : Geom :=
  polygon (a.arealCells ∪ b.arealCells)

end Geom

/-- Python's `max(comps, key=area)`: the first component of maximal area.
`max` on an empty sequence raises in Python; the `[]` case is unreachable
in `_largest_component`'s call sites and returns the empty region. -/
def maxByArea : List Region → Region
  | [] => ∅
  | h :: t => t.foldl (fun acc r => if acc.card < r.card then r else acc) h

/-- `_largest_component` (main.py:191-194): on a `MultiPolygon` the
component with maximum area, otherwise the geometry itself. -/
def _largest_component : Geom → Geom
  | .multipolygon comps => .polygon (maxByArea comps)
  | g => g

/-- `_polygonal_region` (main.py:197-211): extract the largest polygonal
area from any geometry. -/
def _polygonal_region (geometry : Geom) : Geom :=
  if geometry.is_empty then geometry
  else
    match geometry with
    | .polygon _ | .multipolygon _ => _largest_component geometry
    | .collection gs =>
        let polys := gs.filter PGeom.isPolygonal
        match polys with
        | [] => .polygon ∅
        | p :: rest =>
            _largest_component ((rest.map PGeom.toGeom).foldl Geom.union p.toGeom)
    | .lineal _ => .polygon ∅

/-- `_intersection` (main.py:185-188): raises HTTP 500 on an empty input
list, otherwise the left fold of pairwise intersection over the
participants' regions in order. -/
def _intersection (polygons : List Region) : Except String Region :=
  match polygons with
  | [] => .error "No polygons to intersect"
  | h :: t => .ok (t.foldl (fun acc poly => acc ∩ poly) h)

/-- The composition `_polygonal_region(_intersection(shapes))` used by the
resolution flow (main.py:289, main.py:310): the normalized feasible
region. -/
def normalizedIntersection (polygons : List Region) : Except String Geom :=
  (_intersection polygons).map fun r => _polygonal_region (Geom.polygon r)

/- Configuration constants (main.py:18-21). -/

def MAX_PARTICIPANTS : ℕ := 10

def DEFAULT_MAX_MINUTES : ℤ := 15

def MAX_MAX_MINUTES : ℤ := 60

/-- Python `round(x)` over exact rationals: nearest integer, ties to even
(banker's rounding). -/
def pyRound (x : ℚ) : ℤ :=
  let f := ⌊x⌋
  if x - f < 1/2 then f
  else if 1/2 < x - f then f + 1
  else if Even f then f else f + 1

/-- Python `round(x, 1)`. -/
def round1 (x : ℚ) : ℚ := pyRound (10 * x) / 10

/-- Python `round(x, 2)`. -/
def round2 (x : ℚ) : ℚ := pyRound (100 * x) / 100

/-- `_objective_value` (main.py:258-261): sum of the values for the
`min_sum` objective, otherwise their maximum.  Python `max` raises on an
empty list; that case is unreachable (at least one participant) and is
given the junk value 0. -/
def _objective_value (values : List ℚ) (objective : String) : ℚ :=
  if objective = "min_sum" then values.sum
  else match values with
    | [] => 0
    | h :: t => t.foldl max h

/-- Python `str.lower()`, for the ASCII addresses and enums the API
handles; written over the character list so it evaluates. -/
def pyLower (s : String) : String := String.mk (s.data.map Char.toLower)

/-- Python `str.strip()`: drop leading and trailing whitespace; written
over the character list so it evaluates. -/
def pyStrip (s : String) : String :=
  String.mk
    (((s.data.dropWhile Char.isWhitespace).reverse.dropWhile
      Char.isWhitespace).reverse)

/-- `MeetingPointRequest.validate_addresses` (main.py:46-54): strip every
address, drop the ones that become empty, reject an empty or oversized
result. -/
def validate_addresses (value : List String) : Except String (List String) :=
  let cleaned := (value.map pyStrip).filter fun a => !a.data.isEmpty
  if cleaned.isEmpty then .error "addresses cannot be empty"
  else if MAX_PARTICIPANTS < cleaned.length then
    .error "maximum 10 addresses are supported"
  else .ok cleaned

/-- `MeetingPointRequest.normalize_profile` (main.py:56-64):
lowercase, drop a leading `mapbox/`, then require `walking`. -/
def normalize_profile (value : String) : Except String String :=
  let p := pyLower value
  let p := if p.data.take 7 = "mapbox/".data then String.mk (p.data.drop 7) else p
  if p = "walking" then .ok p
  else .error "profile must be one of: walking"

/-- `MeetingPointRequest.normalize_objective` (main.py:66-72). -/
def normalize_objective (value : String) : Except String String :=
  let o := pyLower value
  if o = "min_sum" || o = "min_max" then .ok o
  else .error "objective must be one of: min_max, min_sum"

/-- The fields of a `MeetingPointRequest` body that the core uses. -/
structure RawRequest where
  addresses : List String
  profile : String
  max_minutes : ℤ
  objective : String
deriving DecidableEq

/-- A request that passed pydantic validation. -/
structure ValidRequest where
  addresses : List String
  profile : String
  max_minutes : ℤ
  objective : String
deriving DecidableEq

/-- Pydantic validation of `MeetingPointRequest` (main.py:38-72):
`max_minutes` is declared `Field(DEFAULT_MAX_MINUTES, ge=5, le=MAX_MAX_MINUTES)`,
and the three field validators run on their fields. -/
def validateRequest (r : RawRequest) : Except String ValidRequest :=
  if r.max_minutes < 5 ∨ MAX_MAX_MINUTES < r.max_minutes then
    .error "max_minutes out of range"
  else do
    let addrs ← validate_addresses r.addresses
    let prof ← normalize_profile r.profile
    let obj ← normalize_objective r.objective
    .ok ⟨addrs, prof, r.max_minutes, obj⟩

/-- Loop body of `_deduplicate_addresses`, carrying the `seen` set of
lowercased keys. -/
def dedupeGo (seen : List String) : List String → List String
  | [] => []
  | addr :: rest =>
      let key := pyLower addr
      if key ∈ seen then dedupeGo seen rest
      else addr :: dedupeGo (key :: seen) rest

/-- `_deduplicate_addresses` (main.py:93-102): keep the first address for
each lowercased key, in input order. -/
def _deduplicate_addresses (addresses : List String) : List String :=
  dedupeGo [] addresses

/-- A resolved response body (main.py:346-361): the fields the claims are
about.  `reason` is present exactly when the verdict is false. -/
structure Resolved where
  durations_minutes : List ℚ
  objective : String
  objective_value : ℚ
  max_minutes : ℤ
  reachable : Bool
  reason : Option String
deriving DecidableEq

/-- Outcome of one resolution: infeasibility with a reason code, or a
resolved candidate. -/
inductive MeetingResult where
  | noCommonRegion (reason : String) (max_minutes : ℤ)
  | resolved (r : Resolved)
deriving DecidableEq

/-- The escalation stage of `meeting_point` (main.py:292-298): fetch and
intersect at the requested budget; if empty and below the ceiling, bump
the budget by 5 capped at the ceiling and fetch once more.  `interAt m`
abstracts `compute_with_minutes(m)`: the raw shapely intersection of the
isochrones freshly fetched at budget `m` (the external isochrone provider
composed with `_intersection`).  Returns the final raw geometry, the
effective budget, and the list of budgets fetched at. -/
def budget_escalation (interAt : ℤ → Geom) (max_minutes : ℤ) :
    Geom × ℤ × List ℤ :=
  let g0 := interAt max_minutes
  if g0.is_empty = true ∧ max_minutes < MAX_MAX_MINUTES then
    let bumped := min MAX_MAX_MINUTES (max_minutes + 5)
    (interAt bumped, bumped, [max_minutes, bumped])
  else (g0, max_minutes, [max_minutes])

/-- The evaluation stage of `meeting_point` (main.py:329-361):
minute conversion, objective value, reachability verdict, reason field.
`durations_seconds` abstracts the directions provider's travel times to
the centroid, one per participant in order. -/
def evaluate_candidate (durations_seconds : List ℚ) (objective : String)
    (eff : ℤ) : Resolved :=
  let durations_minutes := durations_seconds.map fun d => round1 (d / 60)
  let objValue := round2 (_objective_value durations_minutes objective)
  let reachable := durations_minutes.all fun d => decide (d ≤ (eff : ℚ) + 1/2)
  ⟨durations_minutes, objective, objValue, eff, reachable,
    if reachable then none else some "travel_time_exceeds_budget"⟩

/-- The resolution flow of `meeting_point` after geocoding
(main.py:284-362): escalation stage, the two infeasibility exits (raw
intersection empty at main.py:300, normalized region empty at
main.py:312), then candidate evaluation.  The second component of the
result is the list of budgets at which isochrones were fetched. -/
def meeting_point (interAt : ℤ → Geom) (durations_seconds : List ℚ)
    (objective : String) (max_minutes : ℤ) : MeetingResult × List ℤ :=
  let s := budget_escalation interAt max_minutes
  if s.1.is_empty then
    (.noCommonRegion "no_common_reachable_region" s.2.1, s.2.2)
  else if (_polygonal_region s.1).is_empty then
    (.noCommonRegion "no_common_reachable_region" s.2.1, s.2.2)
  else
    (.resolved (evaluate_candidate durations_seconds objective s.2.1), s.2.2)

/-! ## Helper lemmas -/

/-- Membership in the left fold of pairwise intersection. -/
lemma mem_foldl_inter (t : List Region) (h : Region) (c : Cell) :
    c ∈ t.foldl (fun acc poly => acc ∩ poly) h ↔ c ∈ h ∧ ∀ s ∈ t, c ∈ s := by
  induction t generalizing h with
  | nil => simp
  | cons a t ih =>
      simp only [List.foldl_cons, ih, Finset.mem_inter, List.mem_cons]
      constructor
      · rintro ⟨⟨hc, ha⟩, ht⟩
        exact ⟨hc, fun s hs => hs.elim (fun e => e ▸ ha) (ht s)⟩
      · rintro ⟨hc, hs⟩
        exact ⟨⟨hc, hs a (.inl rfl)⟩, fun s hst => hs s (.inr hst)⟩

/-- The value `_intersection` returns on a non-empty input is exactly the
set of cells common to every input region. -/
lemma mem_intersection_ok (polygons : List Region) (r : Region)
    (hok : _intersection polygons = .ok r) (c : Cell) :
    c ∈ r ↔ ∀ s ∈ polygons, c ∈ s := by
  cases polygons with
  | nil => simp [_intersection] at hok
  | cons h t =>
      simp only [_intersection, Except.ok.injEq] at hok
      subst hok
      simp only [mem_foldl_inter, List.mem_cons]
      constructor
      · rintro ⟨hc, ht⟩ s hs
        exact hs.elim (fun e => e ▸ hc) (ht s)
      · rintro hs
        exact ⟨hs h (.inl rfl), fun s hst => hs s (.inr hst)⟩

/-- `_intersection` is invariant under permutation of its input list. -/
lemma intersection_perm (l l' : List Region) (hp : l.Perm l') :
    _intersection l = _intersection l' := by
  cases hl : l with
  | nil =>
      have : l' = [] := by
        subst hl; exact hp.symm.eq_nil
      rw [this]
  | cons h t =>
      subst hl
      cases hl' : l' with
      | nil =>
          subst hl'
          exact absurd hp.eq_nil (by simp)
      | cons h' t' =>
          subst hl'
          simp only [_intersection, Except.ok.injEq]
          apply Finset.ext
          intro c
          rw [mem_foldl_inter, mem_foldl_inter]
          constructor
          · rintro ⟨hc, ht⟩
            have hall : ∀ s ∈ h :: t, c ∈ s := by
              intro s hs
              rcases List.mem_cons.mp hs with e | hst
              · exact e ▸ hc
              · exact ht s hst
            have hall' : ∀ s ∈ h' :: t', c ∈ s := fun s hs =>
              hall s (hp.mem_iff.mpr hs)
            exact ⟨hall' h' (List.mem_cons_self h' t'),
              fun s hs => hall' s (List.mem_cons_of_mem _ hs)⟩
          · rintro ⟨hc, ht⟩
            have hall' : ∀ s ∈ h' :: t', c ∈ s := by
              intro s hs
              rcases List.mem_cons.mp hs with e | hst
              · exact e ▸ hc
              · exact ht s hst
            have hall : ∀ s ∈ h :: t, c ∈ s := fun s hs =>
              hall' s (hp.mem_iff.mp hs)
            exact ⟨hall h (List.mem_cons_self h t),
              fun s hs => hall s (List.mem_cons_of_mem _ hs)⟩

/-- Normalizing an empty geometry returns it unchanged. -/
lemma polygonal_region_of_empty (g : Geom) (h : g.is_empty = true) :
    _polygonal_region g = g := by
  simp [_polygonal_region, h]

/-- Normalizing a `Polygon` value returns it unchanged. -/
lemma polygonal_region_polygon (c : Region) :
    _polygonal_region (Geom.polygon c) = Geom.polygon c := by
  by_cases h : (Geom.polygon c).is_empty = true
  · exact polygonal_region_of_empty _ h
  · simp only [_polygonal_region, h, if_false, Bool.false_eq_true]
    rfl

/-- `Geom.union` always produces a `Polygon` value. -/
lemma union_isPolygonal (a b : Geom) : (Geom.union a b).isPolygonal = true := rfl

/-- Folding `Geom.union` over polygonal members stays polygonal. -/
lemma foldl_union_isPolygonal (rest : List Geom) (p : Geom)
    (hp : p.isPolygonal = true) :
    (rest.foldl Geom.union p).isPolygonal = true := by
  induction rest generalizing p with
  | nil => exact hp
  | cons a rest ih => exact ih _ (union_isPolygonal p a)

/-- `_largest_component` of a polygonal geometry is a `Polygon` value. -/
lemma largest_component_shape (g : Geom) (hg : g.isPolygonal = true) :
    ∃ c, _largest_component g = Geom.polygon c := by
  cases g with
  | polygon c => exact ⟨c, rfl⟩
  | multipolygon comps => exact ⟨maxByArea comps, rfl⟩
  | lineal s => simp [Geom.isPolygonal] at hg
  | collection gs => simp [Geom.isPolygonal] at hg

/-- A polygonal collection member is polygonal as a geometry value. -/
lemma toGeom_isPolygonal (p : PGeom) (hp : p.isPolygonal = true) :
    p.toGeom.isPolygonal = true := by
  cases p <;> simp_all [PGeom.isPolygonal, PGeom.toGeom, Geom.isPolygonal]

/-- `_polygonal_region` either leaves an empty geometry unchanged or
produces a `Polygon` value. -/
lemma polygonal_region_cases (g : Geom) :
    (_polygonal_region g = g ∧ g.is_empty = true) ∨
      ∃ c, _polygonal_region g = Geom.polygon c := by
  by_cases h : g.is_empty = true
  · exact .inl ⟨polygonal_region_of_empty g h, h⟩
  · right
    cases g with
    | polygon c => exact ⟨c, polygonal_region_polygon c⟩
    | multipolygon comps =>
        refine ⟨maxByArea comps, ?_⟩
        simp only [_polygonal_region, h, if_false, Bool.false_eq_true]
        rfl
    | lineal s =>
        refine ⟨∅, ?_⟩
        simp only [_polygonal_region, h, if_false, Bool.false_eq_true]
    | collection gs =>
        cases hf : gs.filter PGeom.isPolygonal with
        | nil =>
            refine ⟨∅, ?_⟩
            simp only [_polygonal_region, h, if_false, Bool.false_eq_true, hf]
        | cons p rest =>
            have hp : p.isPolygonal = true := by
              have : p ∈ gs.filter PGeom.isPolygonal := by
                rw [hf]; exact List.mem_cons_self p rest
              exact (List.mem_filter.mp this).2
            obtain ⟨c, hc⟩ :=
              largest_component_shape
                ((rest.map PGeom.toGeom).foldl Geom.union p.toGeom)
                (foldl_union_isPolygonal (rest.map PGeom.toGeom) p.toGeom
                  (toGeom_isPolygonal p hp))
            refine ⟨c, ?_⟩
            simp only [_polygonal_region, h, if_false, Bool.false_eq_true, hf]
            exact hc

/-! ## Claims -/

/-- C4.  Polygon normalization is idempotent: `_polygonal_region`
applied twice equals `_polygonal_region` applied once, and a geometry
that is already a single polygon is returned unchanged. -/
theorem polygonal_region_idempotent :
    (∀ g : Geom, _polygonal_region (_polygonal_region g) = _polygonal_region g) ∧
      (∀ c : Region, _polygonal_region (Geom.polygon c) = Geom.polygon c) := by
  refine ⟨fun g => ?_, polygonal_region_polygon⟩
  rcases polygonal_region_cases g with ⟨he, _⟩ | ⟨c, hc⟩
  · rw [he]; exact he
  · rw [hc]; exact polygonal_region_polygon c

/-- C5.  The left-fold intersection is invariant under reordering of its
inputs: for any non-empty list of regions and any permutation of it, the
normalized output is the same region, with identical area and identical
centroid. -/
theorem intersection_permutation_invariant (l l' : List Region)
    (hne : l ≠ []) (hp : l.Perm l') :
    ∃ g g', normalizedIntersection l = .ok g ∧
      normalizedIntersection l' = .ok g' ∧ g = g' ∧
      g.area = g'.area ∧ g.centroid = g'.centroid := by
  cases hl : l with
  | nil => exact absurd hl hne
  | cons h t =>
      subst hl
      cases hl' : l' with
      | nil =>
          subst hl'
          exact absurd hp.eq_nil (by simp)
      | cons h' t' =>
          subst hl'
          have heq : _intersection (h :: t) = _intersection (h' :: t') :=
            intersection_perm _ _ hp
          have hfold : t'.foldl (fun acc poly => acc ∩ poly) h' =
              t.foldl (fun acc poly => acc ∩ poly) h := by
            simp only [_intersection, Except.ok.injEq] at heq
            exact heq.symm
          refine ⟨_polygonal_region (Geom.polygon
              (t.foldl (fun acc poly => acc ∩ poly) h)), _, rfl, ?_, ?_, rfl, rfl⟩
          · simp only [normalizedIntersection, _intersection, Except.map, hfold]
          · simp only [normalizedIntersection, _intersection, Except.map, hfold]

/-- C5 witness: two concrete regions in both orders. -/
theorem intersection_permutation_invariant_witness :
    (([({((0:ℤ),(0:ℤ)), ((1:ℤ),(0:ℤ))} : Region), {((0:ℤ),(0:ℤ))}] :
        List Region) ≠ []) ∧
      ∃ g g',
        normalizedIntersection
            [({((0:ℤ),(0:ℤ)), ((1:ℤ),(0:ℤ))} : Region), {((0:ℤ),(0:ℤ))}] = .ok g ∧
        normalizedIntersection
            [({((0:ℤ),(0:ℤ))} : Region), {((0:ℤ),(0:ℤ)), ((1:ℤ),(0:ℤ))}] = .ok g' ∧
        g = g' ∧ g.area = g'.area ∧ g.centroid = g'.centroid :=
  ⟨by decide,
    intersection_permutation_invariant _ _ (by decide)
      (List.Perm.swap {((0:ℤ),(0:ℤ))} {((0:ℤ),(0:ℤ)), ((1:ℤ),(0:ℤ))} [])⟩

/-- C6.  The feasible region produced by the intersection reducer is a
subset of every contributing region, and it is empty exactly when the
regions share no common cell. -/
theorem feasible_region_subset_and_empty_iff (regions : List Region)
    (r : Region) (hok : _intersection regions = .ok r) :
    (∀ s ∈ regions, r ⊆ s) ∧
      (r = ∅ ↔ ¬ ∃ c : Cell, ∀ s ∈ regions, c ∈ s) := by
  constructor
  · intro s hs c hc
    exact (mem_intersection_ok regions r hok c).mp hc s hs
  · rw [Finset.eq_empty_iff_forall_not_mem]
    constructor
    · rintro hnone ⟨c, hc⟩
      exact hnone c ((mem_intersection_ok regions r hok c).mpr hc)
    · intro hnc c hc
      exact hnc ⟨c, (mem_intersection_ok regions r hok c).mp hc⟩

/-- C6 witness: two concrete overlapping regions. -/
theorem feasible_region_subset_and_empty_iff_witness :
    (∀ s ∈ [({((0:ℤ),(0:ℤ)), ((1:ℤ),(0:ℤ))} : Region), {((0:ℤ),(0:ℤ))}],
        (({((0:ℤ),(0:ℤ)), ((1:ℤ),(0:ℤ))} ∩ {((0:ℤ),(0:ℤ))}) : Region) ⊆ s) ∧
      ((({((0:ℤ),(0:ℤ)), ((1:ℤ),(0:ℤ))} ∩ {((0:ℤ),(0:ℤ))}) : Region) = ∅ ↔
        ¬ ∃ c : Cell, ∀ s ∈ [({((0:ℤ),(0:ℤ)), ((1:ℤ),(0:ℤ))} : Region),
          {((0:ℤ),(0:ℤ))}], c ∈ s) :=
  feasible_region_subset_and_empty_iff _ _ rfl

/-- C7.  The intersection reducer fails with an error exactly on an empty
input list; on every non-empty input it returns the accumulated
intersection (the cells common to all inputs). -/
theorem intersection_requires_nonempty_input (polygons : List Region) :
    ((_intersection polygons).isOk = false ↔ polygons = []) ∧
      (_intersection [] = .error "No polygons to intersect") ∧
      (∀ r, _intersection polygons = .ok r →
        ∀ c : Cell, c ∈ r ↔ ∀ s ∈ polygons, c ∈ s) := by
  refine ⟨?_, rfl, fun r hok c => mem_intersection_ok polygons r hok c⟩
  cases polygons with
  | nil => simp [_intersection, Except.isOk, Except.toBool]
  | cons h t =>
      simp [_intersection, Except.isOk, Except.toBool]

/-- C7 witness: zero regions fail, one concrete region succeeds. -/
theorem intersection_requires_nonempty_input_witness :
    ((_intersection [({((0:ℤ),(0:ℤ))} : Region)]).isOk = false ↔
        [({((0:ℤ),(0:ℤ))} : Region)] = []) ∧
      (_intersection [] = .error "No polygons to intersect") ∧
      (∀ r, _intersection [({((0:ℤ),(0:ℤ))} : Region)] = .ok r →
        ∀ c : Cell, c ∈ r ↔ ∀ s ∈ [({((0:ℤ),(0:ℤ))} : Region)], c ∈ s) :=
  intersection_requires_nonempty_input [{((0:ℤ),(0:ℤ))}]

/-- The fetch trace of a resolution is decided entirely by the escalation
stage. -/
lemma meeting_point_trace (interAt : ℤ → Geom) (ds : List ℚ) (obj : String)
    (m : ℤ) :
    (meeting_point interAt ds obj m).2 = (budget_escalation interAt m).2.2 := by
  simp only [meeting_point]
  split
  · rfl
  · split <;> rfl

/-- C2.  When the feasible region at the requested budget is empty: at the
ceiling the engine stops with that budget as effective value; below the
ceiling it bumps by exactly 5 capped at the ceiling, refetches, and if
still empty reports infeasibility at the bumped budget.  At most two
budgets are ever fetched (never a second escalation). -/
theorem single_bounded_escalation (interAt : ℤ → Geom) (ds : List ℚ)
    (obj : String) (m : ℤ) :
    ((interAt m).is_empty = true ∧ m = MAX_MAX_MINUTES →
      meeting_point interAt ds obj m =
        (.noCommonRegion "no_common_reachable_region" m, [m])) ∧
    ((interAt m).is_empty = true ∧ m < MAX_MAX_MINUTES →
      (meeting_point interAt ds obj m).2 = [m, min MAX_MAX_MINUTES (m + 5)] ∧
      ((interAt (min MAX_MAX_MINUTES (m + 5))).is_empty = true →
        meeting_point interAt ds obj m =
          (.noCommonRegion "no_common_reachable_region"
            (min MAX_MAX_MINUTES (m + 5)), [m, min MAX_MAX_MINUTES (m + 5)]))) ∧
    (meeting_point interAt ds obj m).2.length ≤ 2 := by
  refine ⟨?_, ?_, ?_⟩
  · rintro ⟨he, rfl⟩
    simp [meeting_point, budget_escalation, he]
  · rintro ⟨he, hlt⟩
    constructor
    · rw [meeting_point_trace]
      simp [budget_escalation, he, hlt]
    · intro he2
      simp [meeting_point, budget_escalation, he, hlt, he2]
  · rw [meeting_point_trace]
    simp only [budget_escalation]
    split <;> simp

/-- C2 witness: requested budget 15 with an always-empty intersection
escalates once to 20 and reports infeasibility with effective budget 20. -/
theorem single_bounded_escalation_witness :
    meeting_point (fun _ => Geom.polygon ∅) [] "min_sum" 15 =
      (.noCommonRegion "no_common_reachable_region" 20, [15, 20]) := by
  have h := ((single_bounded_escalation (fun _ => Geom.polygon ∅) []
    "min_sum" 15).2.1 ⟨rfl, by decide⟩).2 rfl
  have hmin : min MAX_MAX_MINUTES ((15 : ℤ) + 5) = 20 := by decide
  rw [hmin] at h
  exact h

/-- C1 (amended).  The escalation decision is taken on the raw
un-normalized intersection: below the ceiling, the engine refetches at the
bumped budget exactly when the raw intersection at the requested budget is
empty; when the raw intersection is non-empty but its normalization is
empty, it reports `no_common_reachable_region` at the requested budget
without escalating or refetching. -/
theorem escalation_decided_on_raw_intersection (interAt : ℤ → Geom)
    (ds : List ℚ) (obj : String) (m : ℤ) (hm : m < MAX_MAX_MINUTES) :
    ((meeting_point interAt ds obj m).2 = [m, min MAX_MAX_MINUTES (m + 5)] ↔
        (interAt m).is_empty = true) ∧
      ((interAt m).is_empty = false →
        (_polygonal_region (interAt m)).is_empty = true →
        meeting_point interAt ds obj m =
          (.noCommonRegion "no_common_reachable_region" m, [m])) := by
  constructor
  · rw [meeting_point_trace]
    by_cases he : (interAt m).is_empty = true
    · simp [budget_escalation, he, hm]
    · simp [budget_escalation, he, hm]
  · intro he hr
    simp [meeting_point, budget_escalation, he, hr]

/-- C1 witness for the amended claim, at a raw intersection that is a
non-empty line. -/
theorem escalation_decided_on_raw_intersection_witness :
    ((meeting_point (fun _ => Geom.lineal {((0:ℤ),(0:ℤ))}) [] "min_sum" 15).2 =
        [15, min MAX_MAX_MINUTES ((15:ℤ) + 5)] ↔
      ((fun _ : ℤ => Geom.lineal {((0:ℤ),(0:ℤ))}) 15).is_empty = true) ∧
    (((fun _ : ℤ => Geom.lineal {((0:ℤ),(0:ℤ))}) 15).is_empty = false →
      (_polygonal_region ((fun _ : ℤ => Geom.lineal {((0:ℤ),(0:ℤ))}) 15)).is_empty
          = true →
      meeting_point (fun _ => Geom.lineal {((0:ℤ),(0:ℤ))}) [] "min_sum" 15 =
        (.noCommonRegion "no_common_reachable_region" 15, [15])) :=
  escalation_decided_on_raw_intersection _ [] "min_sum" 15 (by decide)

/-- C1 counterexample: a raw intersection that is a non-empty line whose
normalization is empty, at requested budget 15 < 60.  The claim demands an
escalation and refetch before infeasibility is reported, but the engine
fetches only at 15 and reports `no_common_reachable_region` there. -/
theorem nonareal_intersection_reports_without_escalation :
    (_polygonal_region
        ((fun _ : ℤ => Geom.lineal {((0:ℤ),(0:ℤ))}) 15)).is_empty = true ∧
      ((15 : ℤ) < MAX_MAX_MINUTES) ∧
      meeting_point (fun _ => Geom.lineal {((0:ℤ),(0:ℤ))}) [] "min_sum" 15 =
        (.noCommonRegion "no_common_reachable_region" 15, [15]) := by
  refine ⟨by decide, by decide, by decide⟩

/-- A resolved result comes from the evaluation stage at the effective
budget chosen by the escalation stage. -/
lemma meeting_point_resolved (interAt : ℤ → Geom) (ds : List ℚ) (obj : String)
    (m : ℤ) (r : Resolved) (tr : List ℤ)
    (h : meeting_point interAt ds obj m = (.resolved r, tr)) :
    r = evaluate_candidate ds obj (budget_escalation interAt m).2.1 := by
  by_cases h1 : (budget_escalation interAt m).1.is_empty = true
  · simp [meeting_point, h1] at h
  · by_cases h2 : (_polygonal_region (budget_escalation interAt m).1).is_empty = true
    · simp [meeting_point, h1, h2] at h
    · simp [meeting_point, h1, h2] at h
      exact h.1.symm

/-- Python `max(values)` via the left fold: the fold is a member of the
list and an upper bound of it. -/
lemma foldl_max_spec (t : List ℚ) (h : ℚ) :
    t.foldl max h ∈ h :: t ∧ ∀ v ∈ h :: t, v ≤ t.foldl max h := by
  induction t generalizing h with
  | nil =>
      refine ⟨List.mem_cons_self h [], ?_⟩
      intro v hv
      rcases List.mem_cons.mp hv with e | e
      · exact e.le
      · simp at e
  | cons a t ih =>
      obtain ⟨hmem, hbound⟩ := ih (max h a)
      have hfold : (a :: t).foldl max h = t.foldl max (max h a) := rfl
      constructor
      · rw [hfold]
        rcases List.mem_cons.mp hmem with e | e
        · rw [e]
          rcases max_choice h a with hh | ha
          · rw [hh]; exact List.mem_cons_self h (a :: t)
          · rw [ha]; exact List.mem_cons_of_mem _ (List.mem_cons_self a t)
        · exact List.mem_cons_of_mem _ (List.mem_cons_of_mem _ e)
      · intro v hv
        rw [hfold]
        rcases List.mem_cons.mp hv with e | e
        · rw [e]
          exact le_trans (le_max_left h a)
            (hbound _ (List.mem_cons_self (max h a) t))
        · rcases List.mem_cons.mp e with e' | e'
          · rw [e']
            exact le_trans (le_max_right h a)
              (hbound _ (List.mem_cons_self (max h a) t))
          · exact hbound v (List.mem_cons_of_mem _ e')

/-- C3.  For a resolved candidate, the reachability verdict is true iff
every participant's minute duration is within the effective budget plus
the 0.5-minute tolerance; a false verdict carries the reason code
`travel_time_exceeds_budget`, distinct from `no_common_reachable_region`,
and the objective value is computed regardless. -/
theorem verdict_iff_within_budget_tolerance (interAt : ℤ → Geom)
    (ds : List ℚ) (obj : String) (m : ℤ) (r : Resolved) (tr : List ℤ)
    (h : meeting_point interAt ds obj m = (.resolved r, tr)) :
    (r.reachable = true ↔
        ∀ d ∈ r.durations_minutes, d ≤ (r.max_minutes : ℚ) + 1/2) ∧
      (r.reachable = false → r.reason = some "travel_time_exceeds_budget") ∧
      (r.reachable = true → r.reason = none) ∧
      ("travel_time_exceeds_budget" : String) ≠ "no_common_reachable_region" ∧
      r.objective_value = round2 (_objective_value r.durations_minutes obj) := by
  obtain rfl := meeting_point_resolved interAt ds obj m r tr h
  refine ⟨?_, ?_, ?_, by decide, rfl⟩
  · simp [evaluate_candidate, List.all_eq_true]
  · intro hb
    simp only [evaluate_candidate] at hb ⊢
    rw [hb]
    rfl
  · intro hb
    simp only [evaluate_candidate] at hb ⊢
    rw [hb]
    rfl

/-- C3 witness: one participant 3600 seconds away at effective budget 15;
the verdict is false, the reason is set, and the objective value is
computed. -/
theorem verdict_iff_within_budget_tolerance_witness :
    ((evaluate_candidate [3600] "min_sum" 15).reachable = true ↔
        ∀ d ∈ (evaluate_candidate [3600] "min_sum" 15).durations_minutes,
          d ≤ ((evaluate_candidate [3600] "min_sum" 15).max_minutes : ℚ) + 1/2) ∧
      ((evaluate_candidate [3600] "min_sum" 15).reachable = false →
        (evaluate_candidate [3600] "min_sum" 15).reason =
          some "travel_time_exceeds_budget") ∧
      ((evaluate_candidate [3600] "min_sum" 15).reachable = true →
        (evaluate_candidate [3600] "min_sum" 15).reason = none) ∧
      ("travel_time_exceeds_budget" : String) ≠ "no_common_reachable_region" ∧
      (evaluate_candidate [3600] "min_sum" 15).objective_value =
        round2 (_objective_value
          (evaluate_candidate [3600] "min_sum" 15).durations_minutes "min_sum") :=
  verdict_iff_within_budget_tolerance (fun _ => Geom.polygon {((0:ℤ),(0:ℤ))})
    [3600] "min_sum" 15 (evaluate_candidate [3600] "min_sum" 15) [15] rfl

/-- C8.  For a resolved request, durations are converted from seconds to
minutes rounded to one decimal place, and the objective value is the
two-decimal rounding of the sum of the minute durations under `min_sum`
and of their maximum under `min_max`. -/
theorem objective_value_spec (interAt : ℤ → Geom) (ds : List ℚ) (obj : String)
    (m : ℤ) (r : Resolved) (tr : List ℤ)
    (h : meeting_point interAt ds obj m = (.resolved r, tr)) :
    r.durations_minutes = ds.map (fun d => round1 (d / 60)) ∧
      r.objective_value = round2 (_objective_value r.durations_minutes obj) ∧
      (∀ vs : List ℚ, _objective_value vs "min_sum" = vs.sum) ∧
      (∀ vs : List ℚ, vs ≠ [] →
        _objective_value vs "min_max" ∈ vs ∧
          ∀ v ∈ vs, v ≤ _objective_value vs "min_max") := by
  obtain rfl := meeting_point_resolved interAt ds obj m r tr h
  refine ⟨rfl, rfl, fun vs => by simp [_objective_value], ?_⟩
  intro vs hvs
  cases vs with
  | nil => exact absurd rfl hvs
  | cons v t =>
      have hobj : ("min_max" : String) = "min_sum" ↔ False := by simp
      simp only [_objective_value, if_neg (by decide : ¬("min_max" : String) = "min_sum")]
      exact foldl_max_spec t v

/-- C8 witness: two participants 600 and 1234 seconds away under
`min_max`. -/
theorem objective_value_spec_witness :
    (evaluate_candidate [600, 1234] "min_max" 15).durations_minutes =
        ([600, 1234] : List ℚ).map (fun d => round1 (d / 60)) ∧
      (evaluate_candidate [600, 1234] "min_max" 15).objective_value =
        round2 (_objective_value
          (evaluate_candidate [600, 1234] "min_max" 15).durations_minutes
          "min_max") ∧
      (∀ vs : List ℚ, _objective_value vs "min_sum" = vs.sum) ∧
      (∀ vs : List ℚ, vs ≠ [] →
        _objective_value vs "min_max" ∈ vs ∧
          ∀ v ∈ vs, v ≤ _objective_value vs "min_max") :=
  objective_value_spec (fun _ => Geom.polygon {((0:ℤ),(0:ℤ))}) [600, 1234]
    "min_max" 15 (evaluate_candidate [600, 1234] "min_max" 15) [15] rfl

/-- Deduplication returns a subsequence of its input (entries are original
addresses, in input order). -/
lemma dedupeGo_sublist (l : List String) (seen : List String) :
    (dedupeGo seen l).Sublist l := by
  induction l generalizing seen with
  | nil => simp [dedupeGo]
  | cons a rest ih =>
      simp only [dedupeGo]
      split
      · exact (ih seen).cons a
      · exact (ih (pyLower a :: seen)).cons₂ a

/-- The lowercased keys of the deduplicated output avoid `seen` and are
pairwise distinct. -/
lemma dedupeGo_keys_nodup (l : List String) (seen : List String) :
    ((dedupeGo seen l).map pyLower).Nodup ∧
      ∀ k ∈ (dedupeGo seen l).map pyLower, k ∉ seen := by
  induction l generalizing seen with
  | nil => simp [dedupeGo]
  | cons a rest ih =>
      simp only [dedupeGo]
      split
      · exact ih seen
      · rename_i hnot
        obtain ⟨hnd, havoid⟩ := ih (pyLower a :: seen)
        refine ⟨?_, ?_⟩
        · simp only [List.map_cons, List.nodup_cons]
          refine ⟨?_, hnd⟩
          intro hmem
          exact havoid _ hmem (List.mem_cons_self _ _)
        · intro k hk
          simp only [List.map_cons, List.mem_cons] at hk
          rcases hk with e | hk
          · exact e ▸ hnot
          · intro hks
            exact havoid k hk (List.mem_cons_of_mem _ hks)

/-- Every input address key survives deduplication unless already seen. -/
lemma dedupeGo_covers (l : List String) (seen : List String) (a : String)
    (ha : a ∈ l) :
    pyLower a ∈ seen ∨ pyLower a ∈ (dedupeGo seen l).map pyLower := by
  induction l generalizing seen with
  | nil => simp at ha
  | cons b rest ih =>
      simp only [dedupeGo]
      rcases List.mem_cons.mp ha with e | ha'
      · subst e
        split
        · rename_i hin
          exact .inl hin
        · right
          simp only [List.map_cons]
          exact List.mem_cons_self _ _
      · split
        · exact ih seen ha'
        · rcases ih (pyLower b :: seen) ha' with hs | hd
          · rcases List.mem_cons.mp hs with e | hs'
            · right
              simp only [List.map_cons, e]
              exact List.mem_cons_self _ _
            · exact .inl hs'
          · right
            simp only [List.map_cons]
            exact List.mem_cons_of_mem _ hd

/-- Deduplication preserves the first occurrence of each key not yet
seen: searching the output for a key finds the same address as searching
the input. -/
lemma dedupeGo_find (l : List String) (seen : List String) (key : String)
    (hk : key ∉ seen) :
    (dedupeGo seen l).find? (fun b => pyLower b == key) =
      l.find? (fun b => pyLower b == key) := by
  induction l generalizing seen with
  | nil => simp [dedupeGo]
  | cons a rest ih =>
      simp only [dedupeGo]
      split
      · rename_i hin
        have hne : (pyLower a == key) = false := by
          simp only [beq_eq_false_iff_ne, ne_eq]
          intro e
          exact hk (e ▸ hin)
        rw [List.find?_cons_of_neg _ (by simp [hne]), ih seen hk]
      · by_cases he : pyLower a = key
        · rw [List.find?_cons_of_pos _ (by simp [he]),
            List.find?_cons_of_pos _ (by simp [he])]
        · rw [List.find?_cons_of_neg _ (by simp [he]),
            List.find?_cons_of_neg _ (by simp [he])]
          refine ih (pyLower a :: seen) ?_
          intro hks
          rcases List.mem_cons.mp hks with e | hks'
          · exact he e.symm
          · exact hk hks'

/-- Inversion of address validation: a successful result is non-empty and
within the participant cap. -/
lemma validate_addresses_ok (addresses cleaned : List String)
    (h : validate_addresses addresses = .ok cleaned) :
    cleaned ≠ [] ∧ cleaned.length ≤ MAX_PARTICIPANTS ∧
      cleaned = (addresses.map pyStrip).filter fun a => !a.data.isEmpty := by
  simp only [validate_addresses] at h
  split at h
  · exact absurd h (by simp)
  · split at h
    · exact absurd h (by simp)
    · rename_i hne hlen
      simp only [Except.ok.injEq] at h
      subst h
      refine ⟨?_, by omega, rfl⟩
      intro he
      rw [he] at hne
      simp at hne

/-- Formalization of the claim's phrase "differing only by case or
whitespace": the lowercased strings are equal once all whitespace
characters are removed. -/
def sameUpToCaseAndWhitespace (a b : String) : Bool :=
  decide (((pyLower a).toList.filter fun ch => !ch.isWhitespace) =
    ((pyLower b).toList.filter fun ch => !ch.isWhitespace))

/-- C9 (amended).  After validation, addresses differing only by case or
by leading/trailing whitespace collapse to one participant: the
deduplicated list is a subsequence of the cleaned input (order preserved),
its lowercased keys are pairwise distinct, every cleaned address's key is
represented, the representative of each key is the first occurrence in
the cleaned input, and the result has between 1 and 10 entries. -/
theorem dedup_collapses_case_and_strip (addresses cleaned : List String)
    (h : validate_addresses addresses = .ok cleaned) :
    (_deduplicate_addresses cleaned).Sublist cleaned ∧
      ((_deduplicate_addresses cleaned).map pyLower).Nodup ∧
      (∀ a ∈ cleaned, pyLower a ∈ (_deduplicate_addresses cleaned).map pyLower) ∧
      (∀ a ∈ cleaned,
        (_deduplicate_addresses cleaned).find? (fun b => pyLower b == pyLower a) =
          cleaned.find? (fun b => pyLower b == pyLower a)) ∧
      1 ≤ (_deduplicate_addresses cleaned).length ∧
      (_deduplicate_addresses cleaned).length ≤ MAX_PARTICIPANTS := by
  obtain ⟨hne, hlen, -⟩ := validate_addresses_ok addresses cleaned h
  refine ⟨dedupeGo_sublist cleaned [], (dedupeGo_keys_nodup cleaned []).1,
    ?_, ?_, ?_, ?_⟩
  · intro a ha
    rcases dedupeGo_covers cleaned [] a ha with hs | hd
    · simp at hs
    · exact hd
  · intro a _
    exact dedupeGo_find cleaned [] (pyLower a) (by simp)
  · cases hc : cleaned with
    | nil => exact absurd hc hne
    | cons b rest =>
        simp only [_deduplicate_addresses, dedupeGo]
        split
        · rename_i hin
          simp at hin
        · simp
  · exact le_trans (dedupeGo_sublist cleaned []).length_le hlen

/-- C9 witness: mixed-case and padded duplicates of one address collapse
to the first occurrence. -/
theorem dedup_collapses_case_and_strip_witness :
    (_deduplicate_addresses ["A st", "a st", "B st"]).Sublist
        ["A st", "a st", "B st"] ∧
      ((_deduplicate_addresses ["A st", "a st", "B st"]).map pyLower).Nodup ∧
      (∀ a ∈ ["A st", "a st", "B st"],
        pyLower a ∈ (_deduplicate_addresses ["A st", "a st", "B st"]).map pyLower) ∧
      (∀ a ∈ ["A st", "a st", "B st"],
        (_deduplicate_addresses ["A st", "a st", "B st"]).find?
            (fun b => pyLower b == pyLower a) =
          ["A st", "a st", "B st"].find? (fun b => pyLower b == pyLower a)) ∧
      1 ≤ (_deduplicate_addresses ["A st", "a st", "B st"]).length ∧
      (_deduplicate_addresses ["A st", "a st", "B st"]).length ≤
        MAX_PARTICIPANTS :=
  dedup_collapses_case_and_strip ["A st ", " a st", "B st"]
    ["A st", "a st", "B st"] rfl

/-- C9 counterexample: two addresses differing only by internal
whitespace ("a b" vs "a  b") pass validation unchanged and are NOT
collapsed — both remain participants, refuting the claim that any
whitespace-only difference is deduplicated. -/
theorem internal_whitespace_not_collapsed :
    sameUpToCaseAndWhitespace "a b" "a  b" = true ∧
      ("a b" : String) ≠ "a  b" ∧
      validate_addresses ["a b", "a  b"] = .ok ["a b", "a  b"] ∧
      _deduplicate_addresses ["a b", "a  b"] = ["a b", "a  b"] := by
  refine ⟨by decide, by decide, rfl, rfl⟩

/-- C10.  Requests with `max_minutes` below 5 are rejected by validation
before any processing; a validated request always has `max_minutes`
between 5 and the hard ceiling 60, and every `max_minutes` in that range
is accepted (given otherwise valid fields). -/
theorem max_minutes_bounds :
    (∀ r : RawRequest, r.max_minutes < 5 → (validateRequest r).isOk = false) ∧
      (∀ (r : RawRequest) (v : ValidRequest), validateRequest r = .ok v →
        5 ≤ r.max_minutes ∧ r.max_minutes ≤ MAX_MAX_MINUTES ∧
          v.max_minutes = r.max_minutes) ∧
      (∀ m : ℤ, 5 ≤ m → m ≤ MAX_MAX_MINUTES →
        (validateRequest ⟨["a"], "walking", m, "min_sum"⟩).isOk = true) := by
  refine ⟨?_, ?_, ?_⟩
  · intro r hr
    simp only [validateRequest, if_pos (Or.inl hr)]
    rfl
  · intro r v hv
    by_cases hc : r.max_minutes < 5 ∨ MAX_MAX_MINUTES < r.max_minutes
    · rw [validateRequest, if_pos hc] at hv
      exact absurd hv (by simp)
    · push_neg at hc
      refine ⟨hc.1, hc.2, ?_⟩
      rw [validateRequest, if_neg (by push_neg; exact hc)] at hv
      cases ha : validate_addresses r.addresses with
      | error e => rw [ha] at hv; exact absurd hv (by simp [Bind.bind, Except.bind])
      | ok addrs =>
          rw [ha] at hv
          cases hp : normalize_profile r.profile with
          | error e =>
              rw [hp] at hv
              exact absurd hv (by simp [Bind.bind, Except.bind])
          | ok prof =>
              rw [hp] at hv
              cases ho : normalize_objective r.objective with
              | error e =>
                  rw [ho] at hv
                  exact absurd hv (by simp [Bind.bind, Except.bind])
              | ok obj =>
                  rw [ho] at hv
                  simp only [Bind.bind, Except.bind, Except.ok.injEq] at hv
                  rw [← hv]
  · intro m h5 h60
    have hc : ¬(m < 5 ∨ MAX_MAX_MINUTES < m) := by
      push_neg
      exact ⟨h5, h60⟩
    simp only [validateRequest, if_neg hc]
    rfl

/-- C10 witness: a request at `max_minutes = 4` is rejected, one at 5 is
accepted. -/
theorem max_minutes_bounds_witness :
    (validateRequest ⟨["a"], "walking", 4, "min_sum"⟩).isOk = false ∧
      (validateRequest ⟨["a"], "walking", 5, "min_sum"⟩).isOk = true :=
  ⟨max_minutes_bounds.1 ⟨["a"], "walking", 4, "min_sum"⟩ (by decide),
    max_minutes_bounds.2.2 5 (by decide) (by decide)⟩
